import Mathlib

/-!
Shallow embedding of the cache-loader-async repository, for checking its
natural-language specification.

The embedding covers:
* `backing.rs`: the `HashMapBacking` (modelled as an association list, a
  determinization of the hash map) and the `TtlCacheBacking` over it, with the
  `VecDeque` expiry queue modelled as a list in front-to-back order, time
  (`tokio::time::Instant`) modelled as `Nat`, and `Duration` as `Nat`.
  `Instant::now()` is passed in explicitly as a `now` argument.
* `internal_cache.rs`: the message-handling functions of
  `InternalCacheStore` (the synchronous part of each handler), generic over a
  `Backing` record mirroring the `CacheBacking` trait.

Rust `panic!`s (the `unwrap()` calls in `expiry_index_on_key_eq`) are modelled
by the `PRes.panicked` constructor; `Result<_, BackingError>` is modelled by
`Except BackingError`.
-/

deriving instance DecidableEq for Except

namespace CacheLoader

/-- Outcome of a Rust computation that can panic (unwind). `panicked` is an
out-of-band abnormal termination, distinct from returning `Err`. -/
inductive PRes (α : Type _) where
  | panicked
  | ok (a : α)
  deriving DecidableEq, Repr

/-- `TtlError` from backing.rs. -/
inductive TtlError where
  | ExpiryNotFound
  | ExpiryKeyNotFound
  deriving DecidableEq, Repr

/-- `BackingError` from backing.rs (its only variant wraps `TtlError`). -/
inductive BackingError where
  | TtlError (e : TtlError)
  deriving DecidableEq, Repr

section AssocMap

variable {K : Type _} {α : Type _} [DecidableEq K]

/-- Lookup in the association-list model of `std::collections::HashMap`
(`HashMap::get`). -/
def alookup : List (K × α) → K → Option α
  | [], _ => none
  | (k', v) :: rest, k => if k' = k then some v else alookup rest k

/-- `HashMap::insert`: returns the prior value and the updated map.  An
existing key is overwritten in place; a new key is appended (the association
list order is a determinization of the hash map's arbitrary order). -/
def aset : List (K × α) → K → α → Option α × List (K × α)
  | [], k, v => (none, [(k, v)])
  | (k', v') :: rest, k, v =>
    if k' = k then (some v', (k, v) :: rest)
    else
      let r := aset rest k v
      (r.1, (k', v') :: r.2)

/-- `HashMap::remove`: returns the removed value and the updated map. -/
def aremove : List (K × α) → K → Option α × List (K × α)
  | [], _ => (none, [])
  | (k', v') :: rest, k =>
    if k' = k then (some v', rest)
    else
      let r := aremove rest k
      (r.1, (k', v') :: r.2)

end AssocMap

section TtlBacking

variable {K : Type _} {V : Type _} [DecidableEq K]

/-- `TtlCacheBacking` over the default `HashMapBacking` inner map
(`TtlCacheBacking::new`): the default TTL, the `VecDeque<TTlEntry<K>>` expiry
queue (front first; each entry is a key and its expiry instant), and the inner
map from keys to values paired with their expiry instant. -/
structure TtlState (K V : Type _) where
  ttl : Nat
  queue : List (K × Nat)
  map : List (K × (V × Nat))
  deriving DecidableEq, Repr

/-- `TtlCacheBacking::new(ttl)`. -/
def TtlState.new (ttl : Nat) : TtlState K V := ⟨ttl, [], []⟩

/-- The loop of `TtlCacheBacking::remove_old`, acting on the expiry queue and
the inner map: pop entries from the front of the queue while their expiry is
not in the strict future (`now.lt(&entry.expiry)` fails), removing each popped
key from the inner map. -/
def removeOldGo (now : Nat) :
    List (K × Nat) → List (K × (V × Nat)) → List (K × Nat) × List (K × (V × Nat))
  | [], m => ([], m)
  | (k, e) :: rest, m =>
    if now < e then ((k, e) :: rest, m)
    else removeOldGo now rest (aremove m k).2

/-- `TtlCacheBacking::remove_old`. -/
def removeOld (now : Nat) (st : TtlState K V) : TtlState K V :=
  let r := removeOldGo now st.queue st.map
  ⟨st.ttl, r.1, r.2⟩

/-- Core loop of `binary_search_by_key(&t, |entry| entry.expiry)` on the
expiry sequence `es` (the standard library binary search over the index range
[left, right)): `Except.ok i` is `Ok(i)` (an index holding `t`),
`Except.error i` is `Err(i)` (the insertion point).  The `fuel` argument only
bounds the number of loop iterations for structural recursion; since each
iteration shrinks `right - left`, any `fuel ≥ right - left` gives the loop's
exact behaviour (when `fuel = 0` then `left ≥ right` and the loop is over). -/
def bsearchGo (es : List Nat) (t : Nat) : Nat → Nat → Nat → Except Nat Nat
  | left, _, 0 => .error left
  | left, right, fuel + 1 =>
    if left < right then
      let mid := left + (right - left) / 2
      match es.get? mid with
      | none => .error left
      | some e =>
        if e < t then bsearchGo es t (mid + 1) right fuel
        else if t < e then bsearchGo es t left mid fuel
        else .ok mid
    else .error left

/-- `expiry_queue.binary_search_by_key(&t, |entry| entry.expiry)`. -/
def bsearch (es : List Nat) (t : Nat) : Except Nat Nat :=
  bsearchGo es t 0 es.length es.length

/-- The leftward scan of `expiry_index_on_key_eq`: starting just below
position `p`, walk down while the expiry still equals `e`, looking for `k`.
A failed `get` models the `unwrap()` panic (it cannot fire going left). -/
def scanLeft (q : List (K × Nat)) (e : Nat) (k : K) : Nat → PRes (Option Nat)
  | 0 => .ok none
  | p + 1 =>
    match q.get? p with
    | none => .panicked
    | some entry =>
      if entry.2 ≠ e then .ok none
      else if entry.1 = k then .ok (some p)
      else scanLeft q e k p

/-- The loop of the rightward scan of `expiry_index_on_key_eq`: `i` is the
last examined position; while `i` is within bounds the loop advances and calls
`get(i + 1).unwrap()`, which panics when `i + 1` runs past the end.  `fuel`
only drives structural recursion: the caller passes `q.length - i`, which is
exactly the number of remaining iterations (when `fuel = 0` then
`i ≥ q.length` and the loop is over). -/
def scanRightGo (q : List (K × Nat)) (e : Nat) (k : K) : Nat → Nat → PRes (Option Nat)
  | _, 0 => .ok none
  | i, fuel + 1 =>
    match q.get? (i + 1) with
    | none => .panicked
    | some entry =>
      if entry.2 ≠ e then .ok none
      else if entry.1 = k then .ok (some (i + 1))
      else scanRightGo q e k (i + 1) fuel

/-- The rightward scan of `expiry_index_on_key_eq`, starting after position
`i`. -/
def scanRight (q : List (K × Nat)) (e : Nat) (k : K) (i : Nat) : PRes (Option Nat) :=
  scanRightGo q e k i (q.length - i)

/-- `TtlCacheBacking::expiry_index_on_key_eq(idx, expiry, key)`: check `idx`
itself, then scan leftward, then rightward, within the block of records whose
expiry equals `e`. -/
def expiryIndexOnKeyEq (q : List (K × Nat)) (idx : Nat) (e : Nat) (k : K) :
    PRes (Option Nat) :=
  match q.get? idx with
  | none => .panicked
  | some entry =>
    if entry.1 = k then .ok (some idx)
    else
      match scanLeft q e k idx with
      | .panicked => .panicked
      | .ok (some i) => .ok (some i)
      | .ok none => scanRight q e k idx

/-- `TtlCacheBacking::cleanup_expiry(entry, key)`: when a prior map entry was
displaced, locate its expiry record by binary search plus the equal-expiry
scan and excise it; report `ExpiryKeyNotFound` / `ExpiryNotFound` on a
structural-invariant violation. -/
def cleanupExpiry (st : TtlState K V) (entry : Option (V × Nat)) (k : K) :
    PRes (Except BackingError (Option V) × TtlState K V) :=
  match entry with
  | none => .ok (.ok none, st)
  | some (v, oldExpiry) =>
    match bsearch (st.queue.map Prod.snd) oldExpiry with
    | .ok found =>
      match expiryIndexOnKeyEq st.queue found oldExpiry k with
      | .panicked => .panicked
      | .ok (some i) => .ok (.ok (some v), { st with queue := st.queue.eraseIdx i })
      | .ok none => .ok (.error (.TtlError .ExpiryKeyNotFound), st)
    | .error _ => .ok (.error (.TtlError .ExpiryNotFound), st)

/-- The expiry-queue insertion step of `TtlCacheBacking::replace`: on a
binary-search hit at `found`, insert at `found + 1`; on a miss, insert at the
returned insertion point. -/
def insertEntry (st : TtlState K V) (k : K) (expiry : Nat) : TtlState K V :=
  match bsearch (st.queue.map Prod.snd) expiry with
  | .ok found => { st with queue := st.queue.insertIdx (found + 1) (k, expiry) }
  | .error i => { st with queue := st.queue.insertIdx i (k, expiry) }

/-- `TtlCacheBacking::replace(key, value, expiry)`: write the map entry,
excise the displaced entry's expiry record, then insert the new record.  Note
that the insertion happens even when `cleanup_expiry` reported an error; the
error is returned afterwards. -/
def replace (st : TtlState K V) (k : K) (v : V) (expiry : Nat) :
    PRes (Except BackingError (Option V) × TtlState K V) :=
  let r := aset st.map k (v, expiry)
  let st1 := { st with map := r.2 }
  match cleanupExpiry st1 r.1 k with
  | .panicked => .panicked
  | .ok (res, st2) => .ok (res, insertEntry st2 k expiry)

/-- `TtlCacheBacking::remove_key(key)`. -/
def removeKey (st : TtlState K V) (k : K) :
    PRes (Except BackingError (Option V) × TtlState K V) :=
  let r := aremove st.map k
  cleanupExpiry { st with map := r.2 } r.1 k

/-- `TtlCacheBacking::get` (trait impl): sweep, then read through to the
inner map, dropping the stored expiry. -/
def ttlGet (now : Nat) (k : K) (st : TtlState K V) : Option V × TtlState K V :=
  let st1 := removeOld now st
  ((alookup st1.map k).map Prod.fst, st1)

/-- `TtlCacheBacking::get_mut` (trait impl): same state behaviour as `get`
(the mutable reference itself is outside the model). -/
def ttlGetMut (now : Nat) (k : K) (st : TtlState K V) : Option V × TtlState K V :=
  let st1 := removeOld now st
  ((alookup st1.map k).map Prod.fst, st1)

/-- `TtlCacheBacking::set(key, value, meta)`: sweep, compute the deadline
from the meta TTL override or the default TTL, and `replace`. -/
def ttlSet (now : Nat) (k : K) (v : V) (meta : Option Nat) (st : TtlState K V) :
    PRes (Except BackingError (Option V) × TtlState K V) :=
  let st1 := removeOld now st
  let ttl := match meta with
    | some m => m
    | none => st1.ttl
  replace st1 k v (now + ttl)

/-- `TtlCacheBacking::remove(key)`: sweep, then `remove_key`. -/
def ttlRemove (now : Nat) (k : K) (st : TtlState K V) :
    PRes (Except BackingError (Option V) × TtlState K V) :=
  removeKey (removeOld now st) k

/-- `TtlCacheBacking::contains_key(key)`: sweep, then test presence in the
inner map. -/
def ttlContainsKey (now : Nat) (k : K) (st : TtlState K V) : Bool × TtlState K V :=
  let st1 := removeOld now st
  ((alookup st1.map k).isSome, st1)

/-- `TtlCacheBacking::remove_if(predicate)`: remove the matching entries from
the inner map (no sweep), then for each removed key retain only the expiry
records of other keys. -/
def ttlRemoveIf (p : K → V → Bool) (st : TtlState K V) :
    List (K × V) × TtlState K V :=
  let removed := st.map.filter fun kv => p kv.1 kv.2.1
  let m2 := st.map.filter fun kv => !p kv.1 kv.2.1
  let q2 := removed.foldl (fun q kv => q.filter fun entry => entry.1 ≠ kv.1) st.queue
  (removed.map fun kv => (kv.1, kv.2.1), { st with map := m2, queue := q2 })

/-- `TtlCacheBacking::clear`. -/
def ttlClear (st : TtlState K V) : TtlState K V :=
  { st with queue := [], map := [] }

/-- The structural invariant (spec §3 I4) of the TTL backing: the expiry
queue is sorted by deadline (nondecreasing); the multiset of keys in the
queue equals the multiset of keys in the map, which are distinct (so it is
also the set of keys of the map); and each expiry record's deadline equals
the deadline stored alongside that key's value in the map. -/
def TtlInv (st : TtlState K V) : Prop :=
  st.queue.Pairwise (fun a b => a.2 ≤ b.2) ∧
  (st.queue.map Prod.fst).Perm (st.map.map Prod.fst) ∧
  (st.map.map Prod.fst).Nodup ∧
  ∀ r ∈ st.queue, (alookup st.map r.1).map Prod.snd = some r.2

/-- One client-visible operation of the TTL backing, carrying the
`Instant::now()` value it observes where the Rust code reads the clock. -/
inductive TtlOp (K V : Type _) where
  | get (now : Nat) (k : K)
  | getMut (now : Nat) (k : K)
  | set (now : Nat) (k : K) (v : V) (meta : Option Nat)
  | remove (now : Nat) (k : K)
  | containsKey (now : Nat) (k : K)
  | removeIf (p : K → V → Bool)
  | clear

/-- Apply one TTL-backing operation, keeping the resulting backing state. -/
def applyOp : TtlOp K V → TtlState K V → PRes (Except BackingError (TtlState K V))
  | .get now k, st => .ok (.ok (ttlGet now k st).2)
  | .getMut now k, st => .ok (.ok (ttlGetMut now k st).2)
  | .set now k v m, st =>
    match ttlSet now k v m st with
    | .panicked => .panicked
    | .ok (.error e, _) => .ok (.error e)
    | .ok (.ok _, st1) => .ok (.ok st1)
  | .remove now k, st =>
    match ttlRemove now k st with
    | .panicked => .panicked
    | .ok (.error e, _) => .ok (.error e)
    | .ok (.ok _, st1) => .ok (.ok st1)
  | .containsKey now k, st => .ok (.ok (ttlContainsKey now k st).2)
  | .removeIf p, st => .ok (.ok (ttlRemoveIf p st).2)
  | .clear, st => .ok (.ok (ttlClear st))

/-- Run a sequence of TTL-backing operations, stopping at the first backing
error or panic; `.ok (.ok st)` means every operation succeeded. -/
def runOps : List (TtlOp K V) → TtlState K V → PRes (Except BackingError (TtlState K V))
  | [], st => .ok (.ok st)
  | op :: ops, st =>
    match applyOp op st with
    | .panicked => .panicked
    | .ok (.error e) => .ok (.error e)
    | .ok (.ok st1) => runOps ops st1

/-- Modelled from the spec: the queue that results from placing the new
expiry record for key `k` with deadline `e` after all existing records whose
deadline is at most `e` — in particular after all records with deadline equal
to `e`, the FIFO placement among co-expiring keys of spec §4.1 — and before
the strictly later ones. -/
def specInsertAfterEqDeadline (q : List (K × Nat)) (k : K) (e : Nat) :
    List (K × Nat) :=
  q.takeWhile (fun r => r.2 ≤ e) ++ (k, e) :: q.dropWhile (fun r => r.2 ≤ e)

end TtlBacking

/-! ## The cache engine (`internal_cache.rs`) -/

/-- `CacheEntry` from cache_api.rs: a resident value, or an in-flight load.
The broadcast sender (the announcer) is represented by an opaque numeric
token; the claims under study never inspect it. -/
inductive CacheEntry (V : Type _) where
  | Loaded (v : V)
  | Loading (announcer : Nat)
  deriving DecidableEq, Repr

/-- `CacheCommunicationError`, as used by internal_cache.rs.  Its declaration
is not among the provided sources (cache_api.rs is an older revision);
the constructors are the ones internal_cache.rs applies, with channel error
payloads dropped. -/
inductive CacheCommunicationError where
  | LookupLoop
  | TokioOneshotRecvError
  | TokioBroadcastRecvError
  deriving DecidableEq, Repr

/-- `CacheLoadingError`, as used by internal_cache.rs (same caveat as
`CacheCommunicationError`). -/
inductive CacheLoadingError (E : Type _) where
  | CommunicationError (e : CacheCommunicationError)
  | BackingError (e : BackingError)
  | NoData
  | LoadingError (e : E)
  deriving DecidableEq, Repr

/-- `CacheResult` from internal_cache.rs / cache_api.rs: the engine's reply
to one message.  A `Loading` reply carries a join handle, represented by an
opaque numeric token. -/
inductive CacheResult (V : Type _) where
  | Found (v : V)
  | Loading (handle : Nat)
  | None
  | Error (e : BackingError)
  deriving DecidableEq, Repr

/-- The `CacheBacking` trait: each operation takes the backing state and
returns it updated, may fail with a `BackingError`, and may panic.  `M` is the
associated `Meta` type. -/
structure Backing (K V M σ : Type _) where
  get : σ → K → PRes (Except BackingError (Option V) × σ)
  getMut : σ → K → PRes (Except BackingError (Option V) × σ)
  set : σ → K → V → Option M → PRes (Except BackingError (Option V) × σ)
  remove : σ → K → PRes (Except BackingError (Option V) × σ)
  containsKey : σ → K → PRes (Except BackingError Bool × σ)
  removeIf : σ → (K → V → Bool) → PRes (Except BackingError (List (K × V)) × σ)
  clear : σ → PRes (Except BackingError Unit × σ)

section Instances

variable {K V : Type _} [DecidableEq K]

/-- The `HashMapBacking` instance of the trait (its `Meta` is the unit-like
`NoMeta`; no operation errors or panics). -/
def hashB : Backing K V Unit (List (K × V)) where
  get st k := .ok (.ok (alookup st k), st)
  getMut st k := .ok (.ok (alookup st k), st)
  set st k v _ :=
    let r := aset st k v
    .ok (.ok r.1, r.2)
  remove st k :=
    let r := aremove st k
    .ok (.ok r.1, r.2)
  containsKey st k := .ok (.ok (alookup st k).isSome, st)
  removeIf st p :=
    .ok (.ok (st.filter fun kv => p kv.1 kv.2), st.filter fun kv => !p kv.1 kv.2)
  clear _ := .ok (.ok (), [])

/-- The `TtlCacheBacking` instance of the trait over the default inner hash
map, with every `Instant::now()` read during the operation modelled by the
single instant `now`.  Its `Meta` is `TtlMeta`, i.e. a TTL duration. -/
def ttlB (now : Nat) : Backing K V Nat (TtlState K V) where
  get st k :=
    let r := ttlGet now k st
    .ok (.ok r.1, r.2)
  getMut st k :=
    let r := ttlGetMut now k st
    .ok (.ok r.1, r.2)
  set st k v meta := ttlSet now k v meta st
  remove st k := ttlRemove now k st
  containsKey st k :=
    let r := ttlContainsKey now k st
    .ok (.ok r.1, r.2)
  removeIf st p :=
    let r := ttlRemoveIf p st
    .ok (.ok r.1, r.2)
  clear st := .ok (.ok (), ttlClear st)

end Instances

/-- The `matches!(entry, CacheEntry::Loaded(_))` test from
`InternalCacheStore::set`. -/
def isLoadedEntry {V : Type _} : Option (CacheEntry V) → Bool
  | some (.Loaded _) => true
  | _ => false

section Engine

variable {K V M σ E : Type _}

/-- `InternalCacheStore::set(key, value, loading_result, meta)`: the handler
for the `Set` (with `loading_result = false`) and `SetAndUnblock` (with
`loading_result = true`) messages.  With `loading_result` set, an absent key
or an already-`Loaded` entry aborts the install; otherwise `Loaded(value)` is
stored with the given meta and a prior `Loaded` value is reported. -/
def engineSet (b : Backing K (CacheEntry V) M σ) (st : σ) (k : K) (v : V)
    (loadingResult : Bool) (meta : Option M) : PRes (CacheResult V × σ) :=
  match b.get st k with
  | .panicked => .panicked
  | .ok (.error e, st1) => .ok (.Error e, st1)
  | .ok (.ok optEntry, st1) =>
    if loadingResult && optEntry.isNone then .ok (.None, st1)
    else if loadingResult && isLoadedEntry optEntry then .ok (.None, st1)
    else
      match b.set st1 k (.Loaded v) meta with
      | .panicked => .panicked
      | .ok (.error e, st2) => .ok (.Error e, st2)
      | .ok (.ok prior, st2) =>
        match prior with
        | some (.Loaded d) => .ok (.Found d, st2)
        | _ => .ok (.None, st2)

/-- `InternalCacheStore::get_if_present(key)`. -/
def engineGetIfPresent (b : Backing K (CacheEntry V) M σ) (st : σ) (k : K) :
    PRes (CacheResult V × σ) :=
  match b.get st k with
  | .panicked => .panicked
  | .ok (.error e, st1) => .ok (.Error e, st1)
  | .ok (.ok optEntry, st1) =>
    match optEntry with
    | some (.Loaded d) => .ok (.Found d, st1)
    | some (.Loading _) => .ok (.None, st1)
    | none => .ok (.None, st1)

/-- `InternalCacheStore::get(key)` (the synchronous part of the handler).
On a `Loaded` hit reply `Found`; on a `Loading` hit reply `Loading` with the
handle of a freshly spawned subscriber task; on a miss spawn the loader task,
install `Loading` with **no meta**, and reply `Loading`.  `fresh` stands for
the freshly created announcer / join-handle tokens; the spawned tasks
themselves are asynchronous and outside this model. -/
def engineGet (b : Backing K (CacheEntry V) M σ) (st : σ) (k : K) (fresh : Nat) :
    PRes (CacheResult V × σ) :=
  match b.get st k with
  | .panicked => .panicked
  | .ok (.error e, st1) => .ok (.Error e, st1)
  | .ok (.ok optEntry, st1) =>
    match optEntry with
    | some (.Loaded d) => .ok (.Found d, st1)
    | some (.Loading _) => .ok (.Loading fresh, st1)
    | none =>
      match b.set st1 k (.Loading fresh) none with
      | .panicked => .panicked
      | .ok (.error e, st2) => .ok (.Error e, st2)
      | .ok (.ok _, st2) => .ok (.Loading fresh, st2)

/-- `InternalCacheStore::update(key, update_fn, load, meta)` (the synchronous
part): read via `get` or `get_if_present` according to `load`; on `Found v`
store `Loaded (f v)` with the meta and reply `Found (f v)`; on `Loading`
reply `Loading` (the spawned retry task is asynchronous, its reply mapping is
`updateRetryReply`); otherwise forward the read's reply. -/
def engineUpdate (b : Backing K (CacheEntry V) M σ) (st : σ) (k : K) (f : V → V)
    (load : Bool) (meta : Option M) (fresh : Nat) : PRes (CacheResult V × σ) :=
  let data := if load then engineGet b st k fresh else engineGetIfPresent b st k
  match data with
  | .panicked => .panicked
  | .ok (.Found d, st1) =>
    match b.set st1 k (.Loaded (f d)) meta with
    | .panicked => .panicked
    | .ok (.error e, st2) => .ok (.Error e, st2)
    | .ok (.ok _, st2) => .ok (.Found (f d), st2)
  | .ok (.Loading h, st1) => .ok (.Loading h, st1)
  | .ok (res, st1) => .ok (res, st1)

/-- How the task spawned by `InternalCacheStore::update` on a `Loading` read
maps the engine's reply to its re-posted `Update` message into the task's
final result (internal_cache.rs, the `match result` inside the spawned
future). -/
def updateRetryReply (r : CacheResult V) : Except (CacheLoadingError E) V :=
  match r with
  | .Found d => .ok d
  | .Loading _ => .error (.CommunicationError .LookupLoop)
  | .None => .error (.CommunicationError .LookupLoop)
  | .Error e => .error (.BackingError e)

end Engine

/-! ## Lemmas about the association-list model of the hash map -/

section AssocLemmas

variable {K : Type _} {α : Type _} [DecidableEq K]

theorem aset_prior (m : List (K × α)) (k : K) (v : α) :
    (aset m k v).1 = alookup m k := by
  induction m with
  | nil => rfl
  | cons hd tl ih =>
    obtain ⟨k1, v1⟩ := hd
    by_cases h : k1 = k <;> simp [aset, alookup, h, ih]

theorem alookup_aset (m : List (K × α)) (k k2 : K) (v : α) :
    alookup (aset m k v).2 k2 = if k = k2 then some v else alookup m k2 := by
  induction m with
  | nil =>
    by_cases h : k = k2 <;> simp [aset, alookup, h]
  | cons hd tl ih =>
    obtain ⟨k1, v1⟩ := hd
    by_cases h : k1 = k
    · subst h
      by_cases h2 : k1 = k2 <;> simp [aset, alookup, h2]
    · by_cases h2 : k1 = k2
      · subst h2
        simp [aset, alookup, h, Ne.symm h, ih]
      · simp [aset, alookup, h, h2, ih]

theorem keys_aset_of_found (m : List (K × α)) (k : K) (v : α)
    (h : alookup m k ≠ none) :
    (aset m k v).2.map Prod.fst = m.map Prod.fst := by
  induction m with
  | nil => simp [alookup] at h
  | cons hd tl ih =>
    obtain ⟨k1, v1⟩ := hd
    by_cases hk : k1 = k
    · simp [aset, hk]
    · simp [alookup, hk] at h
      simp [aset, hk, ih h]

theorem keys_aset_of_none (m : List (K × α)) (k : K) (v : α)
    (h : alookup m k = none) :
    (aset m k v).2.map Prod.fst = m.map Prod.fst ++ [k] := by
  induction m with
  | nil => simp [aset]
  | cons hd tl ih =>
    obtain ⟨k1, v1⟩ := hd
    by_cases hk : k1 = k
    · simp [alookup, hk] at h
    · simp [alookup, hk] at h
      simp [aset, hk, ih h]

theorem alookup_eq_none_iff (m : List (K × α)) (k : K) :
    alookup m k = none ↔ k ∉ m.map Prod.fst := by
  induction m with
  | nil => simp [alookup]
  | cons hd tl ih =>
    obtain ⟨k1, v1⟩ := hd
    by_cases hk : k1 = k
    · subst hk
      simp [alookup]
    · simp only [alookup, if_neg hk, List.map_cons, List.mem_cons, ih]
      constructor
      · intro hnot hor
        rcases hor with h1 | h2
        · exact hk h1.symm
        · exact hnot h2
      · intro hnot h2
        exact hnot (Or.inr h2)

theorem alookup_isSome_iff (m : List (K × α)) (k : K) :
    (alookup m k).isSome = true ↔ k ∈ m.map Prod.fst := by
  rw [← Decidable.not_iff_not, ← alookup_eq_none_iff (m := m) (k := k)]
  cases alookup m k <;> simp

theorem nodup_keys_aset (m : List (K × α)) (k : K) (v : α)
    (h : (m.map Prod.fst).Nodup) :
    ((aset m k v).2.map Prod.fst).Nodup := by
  by_cases hf : alookup m k = none
  · rw [keys_aset_of_none m k v hf]
    rw [alookup_eq_none_iff] at hf
    rw [List.nodup_append]
    refine ⟨h, List.nodup_singleton k, ?_⟩
    intro a ha hb
    simp only [List.mem_singleton] at hb
    subst hb
    exact hf ha
  · rw [keys_aset_of_found m k v hf]
    exact h

theorem aremove_prior (m : List (K × α)) (k : K) :
    (aremove m k).1 = alookup m k := by
  induction m with
  | nil => rfl
  | cons hd tl ih =>
    obtain ⟨k1, v1⟩ := hd
    by_cases h : k1 = k <;> simp [aremove, alookup, h, ih]

theorem keys_aremove (m : List (K × α)) (k : K) :
    (aremove m k).2.map Prod.fst = (m.map Prod.fst).erase k := by
  induction m with
  | nil => rfl
  | cons hd tl ih =>
    obtain ⟨k1, v1⟩ := hd
    by_cases h : k1 = k
    · simp [aremove, h, List.erase_cons]
    · simp [aremove, List.erase_cons, h, ih]

theorem alookup_aremove_ne (m : List (K × α)) (k k2 : K) (h : k2 ≠ k) :
    alookup (aremove m k).2 k2 = alookup m k2 := by
  induction m with
  | nil => rfl
  | cons hd tl ih =>
    obtain ⟨k1, v1⟩ := hd
    by_cases h1 : k1 = k
    · have h2 : ¬(k1 = k2) := fun hh => h (hh ▸ h1)
      simp [aremove, alookup, h1, h2, Ne.symm h]
    · by_cases h2 : k1 = k2 <;> simp [aremove, alookup, h1, h2, h, ih]

theorem alookup_aremove_self (m : List (K × α)) (k : K)
    (h : (m.map Prod.fst).Nodup) :
    alookup (aremove m k).2 k = none := by
  induction m with
  | nil => rfl
  | cons hd tl ih =>
    obtain ⟨k1, v1⟩ := hd
    simp only [List.map_cons, List.nodup_cons] at h
    by_cases h1 : k1 = k
    · subst h1
      simp [aremove]
      rw [alookup_eq_none_iff]
      exact h.1
    · simp [aremove, alookup, h1, ih h.2]

theorem nodup_keys_aremove (m : List (K × α)) (k : K)
    (h : (m.map Prod.fst).Nodup) :
    ((aremove m k).2.map Prod.fst).Nodup := by
  rw [keys_aremove]
  exact h.erase k

end AssocLemmas

/-! ## Lemmas about the binary search and sorted insertion -/

section SearchLemmas

theorem sorted_get_le (es : List Nat) (hsort : es.Pairwise (· ≤ ·))
    {i j x y : Nat} (hij : i ≤ j)
    (hx : es.get? i = some x) (hy : es.get? j = some y) : x ≤ y := by
  rw [List.get?_eq_some] at hx hy
  obtain ⟨hi, hxi⟩ := hx
  obtain ⟨hj, hyj⟩ := hy
  rcases Nat.lt_or_ge i j with hlt | hge
  · subst hxi hyj
    exact List.pairwise_iff_get.mp hsort ⟨i, hi⟩ ⟨j, hj⟩ hlt
  · have hij2 : i = j := Nat.le_antisymm hij hge
    subst hij2 hxi
    rw [← hyj]

theorem bsearchGo_ok (es : List Nat) (t : Nat) :
    ∀ fuel left right i, bsearchGo es t left right fuel = .ok i →
      es.get? i = some t := by
  intro fuel
  induction fuel with
  | zero =>
    intro left right i h
    simp [bsearchGo] at h
  | succ fuel ih =>
    intro left right i h
    simp only [bsearchGo] at h
    split at h
    · split at h
      · simp at h
      · rename_i e hm
        split at h
        · exact ih _ _ _ h
        · split at h
          · exact ih _ _ _ h
          · rename_i h1 h2
            simp only [Except.ok.injEq] at h
            subst h
            have he : e = t := by omega
            rw [hm, he]
    · simp at h

theorem bsearchGo_err (es : List Nat) (t : Nat) (hsort : es.Pairwise (· ≤ ·)) :
    ∀ fuel left right i,
      right ≤ es.length → left ≤ right → right - left ≤ fuel →
      (∀ j x, j < left → es.get? j = some x → x < t) →
      (∀ j x, right ≤ j → es.get? j = some x → t < x) →
      bsearchGo es t left right fuel = .error i →
      (∀ j x, j < i → es.get? j = some x → x < t) ∧
      (∀ j x, i ≤ j → es.get? j = some x → t < x) ∧ i ≤ es.length := by
  intro fuel
  induction fuel with
  | zero =>
    intro left right i hrlen hlr hfuel hleft hright h
    simp only [bsearchGo, Except.error.injEq] at h
    subst h
    have hrl : right ≤ left := by omega
    refine ⟨hleft, ?_, by omega⟩
    intro j x hj hx
    exact hright j x (by omega) hx
  | succ fuel ih =>
    intro left right i hrlen hlr hfuel hleft hright h
    simp only [bsearchGo] at h
    split at h
    · rename_i hlt
      split at h
      · rename_i hm
        rw [List.get?_eq_none] at hm
        omega
      · rename_i e hm
        split at h
        · rename_i h1
          refine ih (left + (right - left) / 2 + 1) right i hrlen (by omega)
            (by omega) ?_ hright h
          intro j x hj hx
          by_cases hj2 : j < left
          · exact hleft j x hj2 hx
          · have : x ≤ e := sorted_get_le es hsort (by omega) hx hm
            omega
        · split at h
          · rename_i h2
            refine ih left (left + (right - left) / 2) i (by omega) (by omega)
              (by omega) hleft ?_ h
            intro j x hj hx
            by_cases hj2 : right ≤ j
            · exact hright j x hj2 hx
            · have : e ≤ x := sorted_get_le es hsort (by omega) hm hx
              omega
          · simp at h
    · rename_i hge
      simp only [Except.error.injEq] at h
      subst h
      refine ⟨hleft, ?_, by omega⟩
      intro j x hj hx
      exact hright j x (by omega) hx

theorem bsearch_ok (es : List Nat) (t : Nat) {i : Nat}
    (h : bsearch es t = .ok i) : es.get? i = some t :=
  bsearchGo_ok es t es.length 0 es.length i h

theorem bsearch_err (es : List Nat) (t : Nat) (hsort : es.Pairwise (· ≤ ·))
    {i : Nat} (h : bsearch es t = .error i) :
    (∀ j x, j < i → es.get? j = some x → x < t) ∧
    (∀ j x, i ≤ j → es.get? j = some x → t < x) ∧ i ≤ es.length := by
  refine bsearchGo_err es t hsort es.length 0 es.length i le_rfl (Nat.zero_le _)
    (by omega) (by omega) ?_ h
  intro j x hj hx
  rw [List.get?_eq_some] at hx
  obtain ⟨hjl, _⟩ := hx
  omega

theorem map_snd_insertIdx {K : Type _} (l : List (K × Nat)) (p : Nat) (x : K × Nat) :
    (l.insertIdx p x).map Prod.snd = (l.map Prod.snd).insertIdx p x.2 := by
  induction l generalizing p with
  | nil => cases p <;> simp
  | cons hd tl ih => cases p <;> simp [List.insertIdx_succ_cons, ih]

theorem map_fst_insertIdx {K : Type _} (l : List (K × Nat)) (p : Nat) (x : K × Nat) :
    (l.insertIdx p x).map Prod.fst = (l.map Prod.fst).insertIdx p x.1 := by
  induction l generalizing p with
  | nil => cases p <;> simp
  | cons hd tl ih => cases p <;> simp [List.insertIdx_succ_cons, ih]

theorem perm_insertIdx {β : Type _} (l : List β) (p : Nat) (x : β)
    (hp : p ≤ l.length) : (l.insertIdx p x).Perm (x :: l) := by
  induction l generalizing p with
  | nil =>
    have hp0 : p = 0 := by simpa using hp
    subst hp0
    simp
  | cons hd tl ih =>
    cases p with
    | zero => simp
    | succ q =>
      simp only [List.insertIdx_succ_cons]
      refine (List.Perm.cons hd (ih q (by simpa using hp))).trans ?_
      exact List.Perm.swap x hd tl

theorem sorted_insertIdx (es : List Nat) (t : Nat) (p : Nat)
    (hsort : es.Pairwise (· ≤ ·))
    (hle : ∀ j x, j < p → es.get? j = some x → x ≤ t)
    (hge : ∀ j x, p ≤ j → es.get? j = some x → t ≤ x) :
    (es.insertIdx p t).Pairwise (· ≤ ·) := by
  induction es generalizing p with
  | nil =>
    cases p with
    | zero => simp
    | succ q => simp [List.insertIdx_succ_nil]
  | cons a tl ih =>
    cases p with
    | zero =>
      simp only [List.insertIdx_zero]
      refine List.Pairwise.cons ?_ hsort
      intro b hb
      rw [List.mem_iff_get?] at hb
      obtain ⟨n, hn⟩ := hb
      exact hge n b (Nat.zero_le _) hn
    | succ q =>
      simp only [List.insertIdx_succ_cons]
      have htl : tl.Pairwise (· ≤ ·) := hsort.of_cons
      refine List.Pairwise.cons ?_ (ih q htl ?_ ?_)
      · intro b hb
        by_cases hq : q ≤ tl.length
        · rw [List.mem_insertIdx hq] at hb
          rcases hb with hb | hb
          · subst hb
            exact hle 0 a (Nat.succ_pos _) rfl
          · exact List.rel_of_pairwise_cons hsort hb
        · rw [List.insertIdx_of_length_lt tl t q (by omega)] at hb
          exact List.rel_of_pairwise_cons hsort hb
      · intro j x hj hx
        exact hle (j + 1) x (by omega) hx
      · intro j x hj hx
        exact hge (j + 1) x (by omega) hx

theorem sorted_eraseIdx (es : List Nat) (i : Nat)
    (hsort : es.Pairwise (· ≤ ·)) : (es.eraseIdx i).Pairwise (· ≤ ·) :=
  List.Pairwise.sublist (List.eraseIdx_sublist es i) hsort

theorem map_snd_eraseIdx {K : Type _} (l : List (K × Nat)) (i : Nat) :
    (l.eraseIdx i).map Prod.snd = (l.map Prod.snd).eraseIdx i := by
  induction l generalizing i with
  | nil => simp
  | cons hd tl ih => cases i <;> simp [List.eraseIdx, ih]

theorem perm_cons_eraseIdx {β : Type _} (l : List β) {i : Nat} {a : β}
    (h : l.get? i = some a) : l.Perm (a :: l.eraseIdx i) := by
  induction l generalizing i with
  | nil => simp [List.get?] at h
  | cons hd tl ih =>
    cases i with
    | zero =>
      simp only [List.get?] at h
      injection h with h
      subst h
      simp [List.eraseIdx]
    | succ j =>
      simp only [List.get?] at h
      simp only [List.eraseIdx]
      refine ((ih h).cons hd).trans ?_
      exact List.Perm.swap a hd (tl.eraseIdx j)

end SearchLemmas

/-! ## Characterization of the equal-expiry scans and of cleanup_expiry -/

section ScanLemmas

variable {K : Type _} {V : Type _} [DecidableEq K]

theorem get?_map_snd (q : List (K × Nat)) (i : Nat) :
    (q.map Prod.snd).get? i = (q.get? i).map Prod.snd := by
  simp [List.get?_eq_getElem?]

theorem scanLeft_ok_some (q : List (K × Nat)) (e : Nat) (k : K) :
    ∀ p i, scanLeft q e k p = .ok (some i) → q.get? i = some (k, e) := by
  intro p
  induction p with
  | zero =>
    intro i h
    simp [scanLeft] at h
  | succ p ih =>
    intro i h
    simp only [scanLeft] at h
    split at h
    · simp at h
    · rename_i entry hm
      split at h
      · simp at h
      · rename_i he
        split at h
        · rename_i hk
          simp only [PRes.ok.injEq, Option.some.injEq] at h
          subst h
          rw [hm]
          have he2 : entry.2 = e := by simpa using he
          rw [← hk, ← he2]
        · exact ih i h

theorem scanRightGo_ok_some (q : List (K × Nat)) (e : Nat) (k : K) :
    ∀ fuel i j, scanRightGo q e k i fuel = .ok (some j) → q.get? j = some (k, e) := by
  intro fuel
  induction fuel with
  | zero =>
    intro i j h
    simp [scanRightGo] at h
  | succ fuel ih =>
    intro i j h
    simp only [scanRightGo] at h
    split at h
    · simp at h
    · rename_i entry hm
      split at h
      · simp at h
      · rename_i he
        split at h
        · rename_i hk
          simp only [PRes.ok.injEq, Option.some.injEq] at h
          subst h
          rw [hm]
          have he2 : entry.2 = e := by simpa using he
          rw [← hk, ← he2]
        · exact ih (i + 1) j h

theorem expiryIndexOnKeyEq_ok_some (q : List (K × Nat)) (idx : Nat) (e : Nat) (k : K)
    (hidx : (q.map Prod.snd).get? idx = some e) :
    ∀ i, expiryIndexOnKeyEq q idx e k = .ok (some i) → q.get? i = some (k, e) := by
  intro i h
  rw [get?_map_snd] at hidx
  simp only [expiryIndexOnKeyEq] at h
  split at h
  · rename_i hm
    rw [hm] at hidx
    simp at hidx
  · rename_i entry hm
    rw [hm] at hidx
    have hidx2 : entry.2 = e := by simpa using hidx
    split at h
    · rename_i hk
      simp only [PRes.ok.injEq, Option.some.injEq] at h
      subst h
      rw [hm, ← hk, ← hidx2]
    · rcases hscan : scanLeft q e k idx with _ | oj
      · rw [hscan] at h
        simp at h
      · rcases oj with _ | j
        · rw [hscan] at h
          exact scanRightGo_ok_some q e k (q.length - idx) idx i h
        · rw [hscan] at h
          simp only [PRes.ok.injEq, Option.some.injEq] at h
          exact h ▸ scanLeft_ok_some q e k idx j hscan

/-- What a successful `cleanup_expiry` did: either there was no displaced
entry and the state is untouched, or the displaced entry's expiry record was
located at some index of the queue and excised. -/
theorem cleanupExpiry_ok (st : TtlState K V) (entry : Option (V × Nat)) (k : K)
    {w : Option V} {st2 : TtlState K V}
    (h : cleanupExpiry st entry k = .ok (.ok w, st2)) :
    (entry = none ∧ w = none ∧ st2 = st) ∨
    (∃ v e i, entry = some (v, e) ∧ w = some v ∧ st.queue.get? i = some (k, e) ∧
      st2 = { st with queue := st.queue.eraseIdx i }) := by
  match entry with
  | none =>
    left
    simp only [cleanupExpiry, PRes.ok.injEq, Prod.mk.injEq, Except.ok.injEq] at h
    exact ⟨rfl, h.1.symm, h.2.symm⟩
  | some (v, e) =>
    right
    simp only [cleanupExpiry] at h
    split at h
    · rename_i found hfound
      have hget : (st.queue.map Prod.snd).get? found = some e := bsearch_ok _ _ hfound
      split at h
      · simp at h
      · rename_i i hi
        simp only [PRes.ok.injEq, Prod.mk.injEq, Except.ok.injEq] at h
        refine ⟨v, e, i, rfl, h.1.symm, ?_, h.2.symm⟩
        exact expiryIndexOnKeyEq_ok_some st.queue found e k hget i hi
      · simp at h
    · simp at h

end ScanLemmas

/-! ## Preservation of the structural invariant I4 -/

section InvLemmas

variable {K : Type _} {V : Type _} [DecidableEq K]

theorem sorted_queue_iff (q : List (K × Nat)) :
    q.Pairwise (fun a b => a.2 ≤ b.2) ↔ (q.map Prod.snd).Pairwise (· ≤ ·) :=
  List.pairwise_map.symm

theorem aremove_of_none {α : Type _} (m : List (K × α)) (k : K)
    (h : alookup m k = none) : (aremove m k).2 = m := by
  induction m with
  | nil => rfl
  | cons hd tl ih =>
    obtain ⟨k1, v1⟩ := hd
    by_cases hk : k1 = k
    · simp [alookup, hk] at h
    · simp only [alookup, if_neg hk] at h
      simp [aremove, hk, ih h]

theorem insertEntry_inv (st : TtlState K V) (k : K) (ex : Nat)
    (hsort : st.queue.Pairwise (fun a b => a.2 ≤ b.2))
    (hperm : (k :: st.queue.map Prod.fst).Perm (st.map.map Prod.fst))
    (hnodup : (st.map.map Prod.fst).Nodup)
    (hk : (alookup st.map k).map Prod.snd = some ex)
    (hmatch : ∀ r ∈ st.queue, (alookup st.map r.1).map Prod.snd = some r.2) :
    TtlInv (insertEntry st k ex) := by
  have hsort2 : (st.queue.map Prod.snd).Pairwise (· ≤ ·) :=
    (sorted_queue_iff st.queue).mp hsort
  obtain ⟨p, hple, hlow, hhigh, hqdef⟩ :
      ∃ p, p ≤ st.queue.length ∧
        (∀ j x, j < p → (st.queue.map Prod.snd).get? j = some x → x ≤ ex) ∧
        (∀ j x, p ≤ j → (st.queue.map Prod.snd).get? j = some x → ex ≤ x) ∧
        insertEntry st k ex = { st with queue := st.queue.insertIdx p (k, ex) } := by
    unfold insertEntry
    rcases hbs : bsearch (st.queue.map Prod.snd) ex with i | found
    · obtain ⟨hlt, hgt, hlen⟩ := bsearch_err _ ex hsort2 hbs
      refine ⟨i, by simpa using hlen, ?_, ?_, rfl⟩
      · intro j x hj hx
        exact le_of_lt (hlt j x hj hx)
      · intro j x hj hx
        exact le_of_lt (hgt j x hj hx)
    · have hfound : (st.queue.map Prod.snd).get? found = some ex := bsearch_ok _ ex hbs
      have hflen : found < (st.queue.map Prod.snd).length := by
        rw [List.get?_eq_some] at hfound
        exact hfound.1
      refine ⟨found + 1, by simpa using hflen, ?_, ?_, rfl⟩
      · intro j x hj hx
        exact sorted_get_le _ hsort2 (by omega) hx hfound
      · intro j x hj hx
        exact sorted_get_le _ hsort2 (by omega) hfound hx
  rw [hqdef]
  have hlen2 : p ≤ (st.queue.map Prod.fst).length := by simpa using hple
  refine ⟨?_, ?_, hnodup, ?_⟩
  · rw [sorted_queue_iff]
    simp only []
    rw [map_snd_insertIdx]
    exact sorted_insertIdx _ ex p hsort2 hlow hhigh
  · simp only []
    rw [map_fst_insertIdx]
    exact (perm_insertIdx (st.queue.map Prod.fst) p k hlen2).trans hperm
  · intro r hr
    simp only [] at hr
    rw [List.mem_insertIdx hple] at hr
    rcases hr with hr | hr
    · subst hr
      exact hk
    · exact hmatch r hr

theorem replace_inv (st : TtlState K V) (k : K) (v : V) (ex : Nat)
    (hinv : TtlInv st) {w : Option V} {st3 : TtlState K V}
    (h : replace st k v ex = .ok (.ok w, st3)) : TtlInv st3 := by
  obtain ⟨hsort, hperm, hnodup, hmatch⟩ := hinv
  simp only [replace] at h
  rcases hcl : cleanupExpiry { st with map := (aset st.map k (v, ex)).2 }
      (aset st.map k (v, ex)).1 k with _ | ⟨res, st2⟩
  · rw [hcl] at h
    simp at h
  · rw [hcl] at h
    simp only [PRes.ok.injEq, Prod.mk.injEq] at h
    obtain ⟨hres, hst3⟩ := h
    subst hres
    subst hst3
    rw [aset_prior] at hcl
    rcases cleanupExpiry_ok _ _ _ hcl with ⟨hpr, _, hst2⟩ | ⟨vOld, eOld, i, hpr, _, hget, hst2⟩
    · -- no prior entry for k
      subst hst2
      have hknotin : k ∉ st.map.map Prod.fst := (alookup_eq_none_iff st.map k).mp hpr
      refine insertEntry_inv _ k ex hsort ?_ ?_ ?_ ?_
      · simp only []
        rw [keys_aset_of_none st.map k _ hpr]
        exact (hperm.cons k).trans (List.perm_append_singleton k _).symm
      · exact nodup_keys_aset st.map k _ hnodup
      · simp only []
        rw [alookup_aset]
        simp
      · intro r hr
        simp only []
        rw [alookup_aset]
        have hrk : ¬(k = r.1) := by
          intro hh
          apply hknotin
          rw [← hperm.mem_iff]
          subst hh
          exact List.mem_map.mpr ⟨r, hr, rfl⟩
        rw [if_neg hrk]
        exact hmatch r hr
    · -- prior entry (vOld, eOld) for k, record excised at index i
      subst hst2
      have hprne : alookup st.map k ≠ none := by
        rw [hpr]
        simp
      have hqnodup : (st.queue.map Prod.fst).Nodup := hperm.nodup_iff.mpr hnodup
      have hq2perm : st.queue.Perm ((k, eOld) :: st.queue.eraseIdx i) :=
        perm_cons_eraseIdx st.queue (by simpa using hget)
      have hfstperm : (st.queue.map Prod.fst).Perm
          (k :: (st.queue.eraseIdx i).map Prod.fst) := by
        simpa using hq2perm.map Prod.fst
      have hknotin2 : k ∉ (st.queue.eraseIdx i).map Prod.fst := by
        have : (k :: (st.queue.eraseIdx i).map Prod.fst).Nodup :=
          hfstperm.nodup_iff.mp hqnodup
        exact (List.nodup_cons.mp this).1
      refine insertEntry_inv _ k ex ?_ ?_ ?_ ?_ ?_
      · exact List.Pairwise.sublist (List.eraseIdx_sublist st.queue i) hsort
      · simp only []
        rw [keys_aset_of_found st.map k _ hprne]
        exact (hfstperm.symm).trans hperm
      · exact nodup_keys_aset st.map k _ hnodup
      · simp only []
        rw [alookup_aset]
        simp
      · intro r hr
        simp only [] at hr
        simp only []
        have hrq : r ∈ st.queue := (List.eraseIdx_sublist st.queue i).mem hr
        have hrk : ¬(k = r.1) := by
          intro hh
          apply hknotin2
          subst hh
          exact List.mem_map.mpr ⟨r, hr, rfl⟩
        rw [alookup_aset, if_neg hrk]
        exact hmatch r hrq

theorem removeKey_inv (st : TtlState K V) (k : K) (hinv : TtlInv st)
    {w : Option V} {st2 : TtlState K V}
    (h : removeKey st k = .ok (.ok w, st2)) : TtlInv st2 := by
  obtain ⟨hsort, hperm, hnodup, hmatch⟩ := hinv
  simp only [removeKey] at h
  rw [aremove_prior] at h
  rcases cleanupExpiry_ok _ _ _ h with ⟨hpr, _, hst2⟩ | ⟨vOld, eOld, i, hpr, _, hget, hst2⟩
  · subst hst2
    rw [aremove_of_none st.map k hpr]
    exact ⟨hsort, hperm, hnodup, hmatch⟩
  · subst hst2
    have hqnodup : (st.queue.map Prod.fst).Nodup := hperm.nodup_iff.mpr hnodup
    have hq2perm : st.queue.Perm ((k, eOld) :: st.queue.eraseIdx i) :=
      perm_cons_eraseIdx st.queue (by simpa using hget)
    have hfstperm : (st.queue.map Prod.fst).Perm
        (k :: (st.queue.eraseIdx i).map Prod.fst) := by
      simpa using hq2perm.map Prod.fst
    have hknotin2 : k ∉ (st.queue.eraseIdx i).map Prod.fst := by
      have : (k :: (st.queue.eraseIdx i).map Prod.fst).Nodup :=
        hfstperm.nodup_iff.mp hqnodup
      exact (List.nodup_cons.mp this).1
    refine ⟨?_, ?_, ?_, ?_⟩
    · exact List.Pairwise.sublist (List.eraseIdx_sublist st.queue i) hsort
    · simp only []
      rw [keys_aremove]
      have h1 : (k :: (st.queue.eraseIdx i).map Prod.fst).Perm (st.map.map Prod.fst) :=
        hfstperm.symm.trans hperm
      have h2 : ((k :: (st.queue.eraseIdx i).map Prod.fst).erase k).Perm
          ((st.map.map Prod.fst).erase k) := h1.erase k
      simpa using h2
    · simp only []
      exact nodup_keys_aremove st.map k hnodup
    · intro r hr
      simp only [] at hr
      simp only []
      have hrq : r ∈ st.queue := (List.eraseIdx_sublist st.queue i).mem hr
      have hrk : r.1 ≠ k := by
        intro hh
        apply hknotin2
        rw [← hh]
        exact List.mem_map.mpr ⟨r, hr, rfl⟩
      rw [alookup_aremove_ne st.map k r.1 hrk]
      exact hmatch r hrq

/-- The four invariant components, transported over one popping step of
`remove_old` (dropping the front record `(k0, e0)` and removing `k0` from the
map). -/
theorem removeOld_step (k0 : K) (e0 : Nat) (tl : List (K × Nat))
    (m : List (K × (V × Nat)))
    (h1 : ((k0, e0) :: tl).Pairwise (fun a b => a.2 ≤ b.2))
    (h2 : (((k0, e0) :: tl).map Prod.fst).Perm (m.map Prod.fst))
    (h3 : (m.map Prod.fst).Nodup)
    (h4 : ∀ r ∈ (k0, e0) :: tl, (alookup m r.1).map Prod.snd = some r.2) :
    tl.Pairwise (fun a b => a.2 ≤ b.2) ∧
    (tl.map Prod.fst).Perm ((aremove m k0).2.map Prod.fst) ∧
    ((aremove m k0).2.map Prod.fst).Nodup ∧
    (∀ r ∈ tl, (alookup (aremove m k0).2 r.1).map Prod.snd = some r.2) := by
  have hqn : (((k0, e0) :: tl).map Prod.fst).Nodup := h2.nodup_iff.mpr h3
  simp only [List.map_cons, List.nodup_cons] at hqn
  refine ⟨h1.of_cons, ?_, nodup_keys_aremove m k0 h3, ?_⟩
  · rw [keys_aremove]
    have h5 := h2.erase k0
    simp only [List.map_cons] at h5
    rw [List.erase_cons_head] at h5
    exact h5
  · intro r hr
    have hrk : r.1 ≠ k0 := by
      intro hh
      apply hqn.1
      rw [← hh]
      exact List.mem_map.mpr ⟨r, hr, rfl⟩
    rw [alookup_aremove_ne m k0 r.1 hrk]
    exact h4 r (List.mem_cons_of_mem _ hr)

theorem removeOldGo_inv (now : Nat) :
    ∀ (q : List (K × Nat)) (m : List (K × (V × Nat))),
      q.Pairwise (fun a b => a.2 ≤ b.2) →
      (q.map Prod.fst).Perm (m.map Prod.fst) →
      (m.map Prod.fst).Nodup →
      (∀ r ∈ q, (alookup m r.1).map Prod.snd = some r.2) →
      (removeOldGo now q m).1.Pairwise (fun a b => a.2 ≤ b.2) ∧
      ((removeOldGo now q m).1.map Prod.fst).Perm
        ((removeOldGo (V := V) now q m).2.map Prod.fst) ∧
      ((removeOldGo (V := V) now q m).2.map Prod.fst).Nodup ∧
      (∀ r ∈ (removeOldGo now q m).1,
        (alookup (removeOldGo now q m).2 r.1).map Prod.snd = some r.2) := by
  intro q
  induction q with
  | nil =>
    intro m h1 h2 h3 h4
    exact ⟨h1, h2, h3, h4⟩
  | cons hd tl ih =>
    intro m h1 h2 h3 h4
    obtain ⟨k0, e0⟩ := hd
    by_cases hne : now < e0
    · simp only [removeOldGo, if_pos hne]
      exact ⟨h1, h2, h3, h4⟩
    · simp only [removeOldGo, if_neg hne]
      obtain ⟨g1, g2, g3, g4⟩ := removeOld_step k0 e0 tl m h1 h2 h3 h4
      exact ih _ g1 g2 g3 g4

theorem removeOld_inv (now : Nat) (st : TtlState K V) (hinv : TtlInv st) :
    TtlInv (removeOld now st) := by
  obtain ⟨h1, h2, h3, h4⟩ := hinv
  obtain ⟨g1, g2, g3, g4⟩ := removeOldGo_inv now st.queue st.map h1 h2 h3 h4
  exact ⟨g1, g2, g3, g4⟩

theorem removeOldGo_fixpoint (now : Nat) :
    ∀ (q : List (K × Nat)) (m : List (K × (V × Nat))),
      removeOldGo now (removeOldGo now q m).1 (removeOldGo now q m).2
        = removeOldGo now q m := by
  intro q
  induction q with
  | nil => intro m; rfl
  | cons hd tl ih =>
    intro m
    obtain ⟨k0, e0⟩ := hd
    by_cases hne : now < e0
    · simp [removeOldGo, hne]
    · simp only [removeOldGo, if_neg hne]
      exact ih _

/-- The lazy sweep is idempotent: sweeping an already swept state is a
no-op. -/
theorem removeOld_idem (now : Nat) (st : TtlState K V) :
    removeOld now (removeOld now st) = removeOld now st := by
  simp only [removeOld]
  rw [removeOldGo_fixpoint now st.queue st.map]

theorem removeOldGo_lookup (now : Nat) :
    ∀ (q : List (K × Nat)) (m : List (K × (V × Nat))),
      q.Pairwise (fun a b => a.2 ≤ b.2) →
      (q.map Prod.fst).Perm (m.map Prod.fst) →
      (m.map Prod.fst).Nodup →
      (∀ r ∈ q, (alookup m r.1).map Prod.snd = some r.2) →
      ∀ k v d, alookup (removeOldGo now q m).2 k = some (v, d) ↔
        (alookup m k = some (v, d) ∧ now < d) := by
  intro q
  induction q with
  | nil =>
    intro m h1 h2 h3 h4 k v d
    have hmk : m.map Prod.fst = [] := h2.symm.eq_nil
    have hnone : alookup m k = none := by
      rw [alookup_eq_none_iff, hmk]
      simp
    simp [removeOldGo, hnone]
  | cons hd tl ih =>
    intro m h1 h2 h3 h4 k v d
    obtain ⟨k0, e0⟩ := hd
    by_cases hne : now < e0
    · simp only [removeOldGo, if_pos hne]
      constructor
      · intro h
        refine ⟨h, ?_⟩
        have hkmem : k ∈ m.map Prod.fst :=
          (alookup_isSome_iff m k).mp (by rw [h]; rfl)
        rw [← h2.mem_iff, List.mem_map] at hkmem
        obtain ⟨r, hr, hrk⟩ := hkmem
        have hm := h4 r hr
        rw [hrk, h] at hm
        have hm2 : some d = some r.2 := hm
        injection hm2 with hm
        rcases List.mem_cons.mp hr with hr0 | hrtl
        · rw [hr0] at hm
          have hm2 : d = e0 := hm
          omega
        · have hrel : e0 ≤ r.2 := List.rel_of_pairwise_cons h1 hrtl
          have hm2 : d = r.2 := hm
          omega
      · exact fun h => h.1
    · simp only [removeOldGo, if_neg hne]
      obtain ⟨g1, g2, g3, g4⟩ := removeOld_step k0 e0 tl m h1 h2 h3 h4
      rw [ih _ g1 g2 g3 g4 k v d]
      by_cases hk : k = k0
      · subst hk
        rw [alookup_aremove_self m k h3]
        have hm := h4 (k, e0) (List.mem_cons_self _ _)
        constructor
        · intro hcon
          exact absurd hcon.1 (by simp)
        · intro hcon
          rw [hcon.1] at hm
          have hmx : some d = some e0 := hm
          injection hmx with hmx
          exfalso
          omega
      · rw [alookup_aremove_ne m k0 k hk]

theorem removeOld_lookup (now : Nat) (st : TtlState K V) (hinv : TtlInv st)
    (k : K) (v : V) (d : Nat) :
    alookup (removeOld now st).map k = some (v, d) ↔
      (alookup st.map k = some (v, d) ∧ now < d) := by
  obtain ⟨h1, h2, h3, h4⟩ := hinv
  exact removeOldGo_lookup now st.queue st.map h1 h2 h3 h4 k v d

theorem nodup_key_inj {α : Type _} (m : List (K × α)) (h : (m.map Prod.fst).Nodup) :
    ∀ a ∈ m, ∀ b ∈ m, a.1 = b.1 → a = b := by
  induction m with
  | nil =>
    intro a ha
    simp at ha
  | cons hd tl ih =>
    simp only [List.map_cons, List.nodup_cons] at h
    intro a ha b hb hab
    rcases List.mem_cons.mp ha with ha0 | hatl <;> rcases List.mem_cons.mp hb with hb0 | hbtl
    · rw [ha0, hb0]
    · exfalso
      apply h.1
      rw [ha0] at hab
      rw [hab]
      exact List.mem_map.mpr ⟨b, hbtl, rfl⟩
    · exfalso
      apply h.1
      rw [hb0] at hab
      rw [← hab]
      exact List.mem_map.mpr ⟨a, hatl, rfl⟩
    · exact ih h.2 a hatl b hbtl hab

theorem map_fst_filter_key {α : Type _} (q : List (K × α)) (cond : K → Bool) :
    (q.filter (fun r => cond r.1)).map Prod.fst = (q.map Prod.fst).filter cond := by
  induction q with
  | nil => rfl
  | cons hd tl ih =>
    by_cases h : cond hd.1 <;> simp [List.filter_cons, h, ih]

theorem alookup_filter_key {α : Type _} (m : List (K × α)) (cond : K → Bool) (k : K) :
    alookup (m.filter fun kv => cond kv.1) k = if cond k then alookup m k else none := by
  induction m with
  | nil => by_cases h : cond k <;> simp [alookup, h]
  | cons hd tl ih =>
    by_cases h1 : cond hd.1
    · by_cases h2 : hd.1 = k
      · subst h2
        simp [List.filter_cons, h1, alookup]
      · simp [List.filter_cons, h1, alookup, h2, ih]
    · by_cases h2 : hd.1 = k
      · subst h2
        have h1f : cond hd.1 = false := by simpa using h1
        simp [List.filter_cons, h1f, ih]
      · simp [List.filter_cons, h1, alookup, h2, ih]

theorem foldl_retain_eq_filter {β : Type _} :
    ∀ (removed : List (K × β)) (q : List (K × Nat)),
      removed.foldl (fun qq kv => qq.filter fun entry => entry.1 ≠ kv.1) q
        = q.filter (fun entry => removed.all fun kv => decide (entry.1 ≠ kv.1)) := by
  intro removed
  induction removed with
  | nil =>
    intro q
    simp
  | cons kv rest ih =>
    intro q
    simp only [List.foldl_cons]
    rw [ih, List.filter_filter]
    apply List.filter_congr
    intro e he
    simp [List.all_cons, Bool.and_comm]

theorem removeIf_inv (pb : K → V → Bool) (st : TtlState K V) (hinv : TtlInv st) :
    TtlInv (ttlRemoveIf pb st).2 := by
  obtain ⟨h1, h2, h3, h4⟩ := hinv
  set cond : K → Bool := fun k2 =>
    (st.map.filter fun kv2 => pb kv2.1 kv2.2.1).all fun kw => decide (k2 ≠ kw.1) with hcdef
  have hcond : ∀ kv ∈ st.map, cond kv.1 = !pb kv.1 kv.2.1 := by
    intro kv hkv
    by_cases hp : pb kv.1 kv.2.1 = true
    · rw [hp, hcdef]
      simp only [Bool.not_true]
      have hkvr : kv ∈ st.map.filter fun kv2 => pb kv2.1 kv2.2.1 :=
        List.mem_filter.mpr ⟨hkv, hp⟩
      cases hall : (st.map.filter fun kv2 => pb kv2.1 kv2.2.1).all
          fun kw => decide (kv.1 ≠ kw.1) with
      | false => rfl
      | true =>
        exfalso
        rw [List.all_eq_true] at hall
        have := hall kv hkvr
        simp at this
    · rw [hcdef]
      have hp2 : pb kv.1 kv.2.1 = false := by
        cases hx : pb kv.1 kv.2.1
        · rfl
        · exact absurd hx hp
      rw [hp2]
      simp only [Bool.not_false]
      rw [List.all_eq_true]
      intro kw hkw
      rw [List.mem_filter] at hkw
      simp only [decide_eq_true_eq]
      intro hkk
      have hkveq : kv = kw := nodup_key_inj st.map h3 kv hkv kw hkw.1 hkk
      rw [hkveq, hkw.2] at hp2
      exact absurd hp2 (by simp)
  have hmfilter : (st.map.filter fun kv => !pb kv.1 kv.2.1)
      = st.map.filter (fun kv => cond kv.1) := by
    apply List.filter_congr
    intro kv hkv
    exact (hcond kv hkv).symm
  have hq2 : (ttlRemoveIf pb st).2.queue = st.queue.filter (fun e => cond e.1) := by
    simp only [ttlRemoveIf]
    rw [foldl_retain_eq_filter]
  have hm2 : (ttlRemoveIf pb st).2.map = st.map.filter (fun kv => cond kv.1) := by
    simp only [ttlRemoveIf]
    exact hmfilter
  refine ⟨?_, ?_, ?_, ?_⟩
  · rw [hq2]
    exact List.Pairwise.sublist (List.filter_sublist _) h1
  · rw [hq2, hm2]
    have hql : (st.queue.filter (fun e => cond e.1)).map Prod.fst
        = (st.queue.map Prod.fst).filter cond := map_fst_filter_key st.queue cond
    rw [hql, map_fst_filter_key]
    exact h2.filter cond
  · rw [hm2, map_fst_filter_key]
    exact h3.filter cond
  · intro r hr
    rw [hq2] at hr
    rw [hm2]
    rw [List.mem_filter] at hr
    rw [alookup_filter_key st.map cond r.1, if_pos hr.2]
    exact h4 r hr.1

theorem ttlClear_inv (st : TtlState K V) : TtlInv (ttlClear st) := by
  refine ⟨?_, ?_, ?_, ?_⟩ <;> simp [ttlClear]

theorem ttlInv_new (d : Nat) : TtlInv (TtlState.new (K := K) (V := V) d) := by
  refine ⟨?_, ?_, ?_, ?_⟩ <;> simp [TtlState.new]

theorem ttlSet_inv (now : Nat) (k : K) (v : V) (meta : Option Nat)
    (st : TtlState K V) (hinv : TtlInv st) {w : Option V} {st2 : TtlState K V}
    (h : ttlSet now k v meta st = .ok (.ok w, st2)) : TtlInv st2 := by
  simp only [ttlSet] at h
  exact replace_inv _ k v _ (removeOld_inv now st hinv) h

theorem ttlRemove_inv (now : Nat) (k : K) (st : TtlState K V) (hinv : TtlInv st)
    {w : Option V} {st2 : TtlState K V}
    (h : ttlRemove now k st = .ok (.ok w, st2)) : TtlInv st2 := by
  simp only [ttlRemove] at h
  exact removeKey_inv _ k (removeOld_inv now st hinv) h

theorem applyOp_inv (op : TtlOp K V) (st : TtlState K V) (hinv : TtlInv st)
    {st2 : TtlState K V} (h : applyOp op st = .ok (.ok st2)) : TtlInv st2 := by
  cases op with
  | get now k =>
    simp only [applyOp, ttlGet, PRes.ok.injEq, Except.ok.injEq] at h
    rw [← h]
    exact removeOld_inv now st hinv
  | getMut now k =>
    simp only [applyOp, ttlGetMut, PRes.ok.injEq, Except.ok.injEq] at h
    rw [← h]
    exact removeOld_inv now st hinv
  | containsKey now k =>
    simp only [applyOp, ttlContainsKey, PRes.ok.injEq, Except.ok.injEq] at h
    rw [← h]
    exact removeOld_inv now st hinv
  | removeIf p =>
    simp only [applyOp, PRes.ok.injEq, Except.ok.injEq] at h
    rw [← h]
    exact removeIf_inv p st hinv
  | clear =>
    simp only [applyOp, PRes.ok.injEq, Except.ok.injEq] at h
    rw [← h]
    exact ttlClear_inv st
  | set now k v meta =>
    simp only [applyOp] at h
    rcases hset : ttlSet now k v meta st with _ | ⟨res, st1⟩
    · rw [hset] at h
      simp at h
    · rw [hset] at h
      rcases res with e | w
      · simp at h
      · simp only [PRes.ok.injEq, Except.ok.injEq] at h
        rw [← h]
        exact ttlSet_inv now k v meta st hinv hset
  | remove now k =>
    simp only [applyOp] at h
    rcases hrem : ttlRemove now k st with _ | ⟨res, st1⟩
    · rw [hrem] at h
      simp at h
    · rw [hrem] at h
      rcases res with e | w
      · simp at h
      · simp only [PRes.ok.injEq, Except.ok.injEq] at h
        rw [← h]
        exact ttlRemove_inv now k st hinv hrem

theorem runOps_inv (ops : List (TtlOp K V)) :
    ∀ st, TtlInv st → ∀ {st2 : TtlState K V},
      runOps ops st = .ok (.ok st2) → TtlInv st2 := by
  induction ops with
  | nil =>
    intro st h st2 hr
    simp only [runOps, PRes.ok.injEq, Except.ok.injEq] at hr
    rw [← hr]
    exact h
  | cons op ops ih =>
    intro st h st2 hr
    simp only [runOps] at hr
    rcases hap : applyOp op st with _ | r
    · rw [hap] at hr
      simp at hr
    · rw [hap] at hr
      rcases r with e | st1
      · simp at hr
      · exact ih st1 (applyOp_inv op st h hap) hr

theorem bsearchGo_err_le (es : List Nat) (t : Nat) :
    ∀ fuel left right i, left ≤ right → right ≤ es.length →
      bsearchGo es t left right fuel = .error i → i ≤ es.length := by
  intro fuel
  induction fuel with
  | zero =>
    intro l r i hlr hrl h
    simp only [bsearchGo, Except.error.injEq] at h
    omega
  | succ fuel ih =>
    intro l r i hlr hrl h
    simp only [bsearchGo] at h
    split at h
    · rename_i hlt
      split at h
      · simp only [Except.error.injEq] at h
        omega
      · rename_i e hm
        split at h
        · exact ih _ _ _ (by omega) hrl h
        · split at h
          · exact ih _ _ _ (by omega) (by omega) h
          · simp at h
    · simp only [Except.error.injEq] at h
      omega

theorem insertEntry_mem (st : TtlState K V) (k : K) (ex : Nat) :
    (k, ex) ∈ (insertEntry st k ex).queue := by
  unfold insertEntry
  rcases hbs : bsearch (st.queue.map Prod.snd) ex with i | found
  · have hle : i ≤ st.queue.length := by
      have := bsearchGo_err_le (st.queue.map Prod.snd) ex
        (st.queue.map Prod.snd).length 0 (st.queue.map Prod.snd).length i
        (Nat.zero_le _) le_rfl hbs
      simpa using this
    show (k, ex) ∈ st.queue.insertIdx i (k, ex)
    rw [List.mem_insertIdx hle]
    exact Or.inl rfl
  · have hfound : (st.queue.map Prod.snd).get? found = some ex := bsearch_ok _ ex hbs
    have hlt : found < st.queue.length := by
      rw [List.get?_eq_some] at hfound
      have := hfound.1
      simpa using this
    show (k, ex) ∈ st.queue.insertIdx (found + 1) (k, ex)
    rw [List.mem_insertIdx (by omega)]
    exact Or.inl rfl

theorem insertEntry_map (st : TtlState K V) (k : K) (ex : Nat) :
    (insertEntry st k ex).map = st.map := by
  unfold insertEntry
  rcases bsearch (st.queue.map Prod.snd) ex with i | found <;> rfl

theorem insertEntry_ttl (st : TtlState K V) (k : K) (ex : Nat) :
    (insertEntry st k ex).ttl = st.ttl := by
  unfold insertEntry
  rcases bsearch (st.queue.map Prod.snd) ex with i | found <;> rfl

theorem replace_none_prior (st : TtlState K V) (k : K) (v : V) (ex : Nat)
    (h : alookup st.map k = none) :
    replace st k v ex
      = .ok (.ok none, insertEntry { st with map := (aset st.map k (v, ex)).2 } k ex) := by
  simp only [replace, aset_prior, h, cleanupExpiry]

end InvLemmas

/-! ## The claims -/

section Claims

variable {K : Type _} {V : Type _} {E : Type _} [DecidableEq K]

/-- C1: handling a `SetAndUnblock(k, v, m)` message (engine `set` with
`loading_result = true`, over the default hash-map backing) leaves the
backing unchanged and replies `None` when `k` is absent; leaves the entry
unchanged and replies `None` when the entry is `Loaded`; and installs
`Loaded(v)` (the meta is forwarded to the backing, whose meta type is the
unit-like `NoMeta`) replying `None` when the entry is `Loading`. -/
theorem c1_set_and_unblock (st : List (K × CacheEntry V)) (k : K) (v : V)
    (m : Option Unit) :
    (alookup st k = none →
      engineSet hashB st k v true m = .ok (.None, st)) ∧
    (∀ d, alookup st k = some (.Loaded d) →
      engineSet hashB st k v true m = .ok (.None, st)) ∧
    (∀ a, alookup st k = some (.Loading a) →
      engineSet hashB st k v true m = .ok (.None, (aset st k (.Loaded v)).2)) := by
  refine ⟨?_, ?_, ?_⟩
  · intro h
    simp [engineSet, hashB, h]
  · intro d h
    simp [engineSet, hashB, h, isLoadedEntry]
  · intro a h
    simp [engineSet, hashB, h, isLoadedEntry, aset_prior]

theorem c1_set_and_unblock_witness :
    engineSet (V := Nat) hashB ([] : List (Nat × CacheEntry Nat)) 0 9 true none
      = .ok (.None, []) ∧
    engineSet hashB [(0, CacheEntry.Loaded 7)] 0 9 true (none : Option Unit)
      = .ok (.None, [(0, CacheEntry.Loaded 7)]) ∧
    engineSet hashB [(0, CacheEntry.Loading 3)] 0 9 true (none : Option Unit)
      = .ok (.None, [(0, CacheEntry.Loaded 9)]) :=
  ⟨(c1_set_and_unblock [] 0 9 none).1 rfl,
   (c1_set_and_unblock [(0, CacheEntry.Loaded 7)] 0 9 none).2.1 7 rfl,
   (c1_set_and_unblock [(0, CacheEntry.Loading 3)] 0 9 none).2.2 3 rfl⟩

/-- C8: for an entry `Loaded(v)`, handling `Update(k, f, load_if_absent,
meta)` (over the default hash-map backing) replies `Found(f(v))` and leaves
the backing with `Loaded(f(v))` stored for `k` (the meta is forwarded to the
backing, whose meta type is the unit-like `NoMeta`). -/
theorem c8_update_on_loaded (st : List (K × CacheEntry V)) (k : K) (f : V → V)
    (load : Bool) (m : Option Unit) (fresh : Nat) (v : V)
    (h : alookup st k = some (.Loaded v)) :
    engineUpdate hashB st k f load m fresh
      = .ok (.Found (f v), (aset st k (.Loaded (f v))).2) := by
  cases load <;>
    simp [engineUpdate, engineGet, engineGetIfPresent, hashB, h]

theorem c8_update_on_loaded_witness :
    engineUpdate (V := Nat) hashB [(0, CacheEntry.Loaded 4)] 0 (fun x => x + 1)
        false (none : Option Unit) 0
      = .ok (.Found 5, [(0, CacheEntry.Loaded 5)]) :=
  c8_update_on_loaded [(0, CacheEntry.Loaded 4)] 0 (fun x => x + 1) false none 0 4 rfl

/-- C9 counterexample: the claim says `LookupLoop` is surfaced exactly when
the re-posted `Update` observes a `Loading` reply; but the code also maps the
`None` reply to `LookupLoop`, so at the reply `None` the claimed equivalence
is false. -/
theorem c9_counterexample :
    ¬ ((updateRetryReply (V := Nat) (E := Nat) .None
          = .error (.CommunicationError .LookupLoop)) ↔
        ∃ hId, (CacheResult.None : CacheResult Nat) = .Loading hId) := by
  intro hiff
  obtain ⟨hId, hEq⟩ := hiff.mp rfl
  cases hEq

/-- C9 (amended): the retry task spawned by `Update` reports `LookupLoop`
exactly when the engine's reply to the re-posted `Update` is `Loading` or
`None`; `Found` maps to success and `Error` maps to a backing error. -/
theorem c9_lookup_loop_on_loading_or_none (r : CacheResult V) :
    updateRetryReply (E := E) r = .error (.CommunicationError .LookupLoop) ↔
      (r = .None ∨ ∃ hId, r = .Loading hId) := by
  cases r <;> simp [updateRetryReply]

/-- C10: over the default hash-map backing, `GetIfPresent(k)` replies `None`
both when the entry for `k` is `Loading` and when `k` is absent, leaving the
backing unchanged in both cases (the engine does not subscribe to the
announcer: the reply carries no handle). -/
theorem c10_get_if_present_loading (st : List (K × CacheEntry V)) (k : K) :
    (∀ a, alookup st k = some (.Loading a) →
      engineGetIfPresent hashB st k = .ok (.None, st)) ∧
    (alookup st k = none →
      engineGetIfPresent hashB st k = .ok (.None, st)) := by
  constructor
  · intro a h
    simp [engineGetIfPresent, hashB, h]
  · intro h
    simp [engineGetIfPresent, hashB, h]

theorem c10_get_if_present_loading_witness :
    engineGetIfPresent (V := Nat) hashB [(0, CacheEntry.Loading 3)] 0
      = .ok (.None, [(0, CacheEntry.Loading 3)]) ∧
    engineGetIfPresent (V := Nat) hashB ([] : List (Nat × CacheEntry Nat)) 1
      = .ok (.None, []) :=
  ⟨(c10_get_if_present_loading [(0, CacheEntry.Loading 3)] 0).1 3 rfl,
   (c10_get_if_present_loading [] 1).2 rfl⟩

/-- C2: for the TTL backing, after any sequence of successful operations
(get, get_mut, set, remove, contains_key, remove_if, clear) starting from an
empty backing, the expiry queue is sorted by deadline ascending, the multiset
of keys in the expiry queue equals the set of keys in the map (the map's keys
being distinct), and each expiry record's deadline equals the deadline stored
alongside that key's value in the map. -/
theorem c2_ttl_index_consistency (d : Nat) (ops : List (TtlOp K V))
    {st : TtlState K V} (h : runOps ops (TtlState.new d) = .ok (.ok st)) :
    TtlInv st :=
  runOps_inv ops (TtlState.new d) (ttlInv_new d) h

theorem c2_ttl_index_consistency_witness :
    TtlInv (K := Nat) (V := Nat)
      ⟨5, [(3, 11), (1, 14)], [(1, (11, 14)), (3, (30, 11))]⟩ :=
  c2_ttl_index_consistency 5
    [.set 0 1 10 none, .set 0 2 20 (some 3), .get 4 1, .containsKey 2 1,
     .set 4 1 11 (some 10), .remove 5 2, .removeIf (fun k _ => k == 9),
     .set 6 3 30 none]
    (by rfl)

/-- C3 counterexample: on a queue holding three records with deadline 5, the
binary search lands in the middle of the equal-deadline block and the new
record for key 3 is inserted at position 2, before the record for key 2 —
not after all records of equal deadline, so the claimed FIFO placement
(formalized by `specInsertAfterEqDeadline`, which follows the spec's words)
is violated. -/
theorem c3_fifo_counterexample :
    ttlSet 0 3 3 none
        (⟨5, [(0, 5), (1, 5), (2, 5)],
          [(0, (0, 5)), (1, (1, 5)), (2, (2, 5))]⟩ : TtlState Nat Nat)
      = .ok (.ok none,
          ⟨5, [(0, 5), (1, 5), (3, 5), (2, 5)],
            [(0, (0, 5)), (1, (1, 5)), (2, (2, 5)), (3, (3, 5))]⟩) ∧
    ([(0, 5), (1, 5), (3, 5), (2, 5)] : List (Nat × Nat))
      ≠ specInsertAfterEqDeadline [(0, 5), (1, 5), (2, 5)] 3 5 := by
  refine ⟨?_, ?_⟩ <;> decide

/-- C3 (amended): a successful TTL-backing `set(k, v, meta)` on a state
satisfying the structural invariant inserts the new expiry record at a
position that keeps the queue sorted by deadline — adjacent to the records
of equal deadline, but not necessarily after all of them (FIFO among three
or more co-expiring keys can be violated). -/
theorem c3_insert_keeps_sorted (now : Nat) (k : K) (v : V) (meta : Option Nat)
    (st : TtlState K V) (hinv : TtlInv st) {w : Option V} {st2 : TtlState K V}
    (h : ttlSet now k v meta st = .ok (.ok w, st2)) :
    st2.queue.Pairwise (fun a b => a.2 ≤ b.2) ∧
    (k, now + meta.getD st.ttl) ∈ st2.queue := by
  refine ⟨(ttlSet_inv now k v meta st hinv h).1, ?_⟩
  cases meta <;>
  · simp only [ttlSet, replace, Option.getD] at h ⊢
    split at h
    · simp at h
    · simp only [PRes.ok.injEq, Prod.mk.injEq] at h
      obtain ⟨h1, h2⟩ := h
      subst h2
      exact insertEntry_mem _ k _

theorem c3_insert_keeps_sorted_witness :
    (⟨5, [(0, 5), (1, 5), (3, 5), (2, 5)],
        [(0, (0, 5)), (1, (1, 5)), (2, (2, 5)), (3, (3, 5))]⟩
          : TtlState Nat Nat).queue.Pairwise (fun a b => a.2 ≤ b.2) ∧
    ((3 : Nat), 0 + (none : Option Nat).getD
        (⟨5, [(0, 5), (1, 5), (2, 5)], [(0, (0, 5)), (1, (1, 5)), (2, (2, 5))]⟩
          : TtlState Nat Nat).ttl) ∈
      (⟨5, [(0, 5), (1, 5), (3, 5), (2, 5)],
        [(0, (0, 5)), (1, (1, 5)), (2, (2, 5)), (3, (3, 5))]⟩
          : TtlState Nat Nat).queue :=
  c3_insert_keeps_sorted 0 3 3 none
    ⟨5, [(0, 5), (1, 5), (2, 5)], [(0, (0, 5)), (1, (1, 5)), (2, (2, 5))]⟩
    (by refine ⟨?_, ?_, ?_, ?_⟩ <;> decide) (by rfl)

/-- C4 counterexample: the engine's `Get` miss installs `Loading` with meta
`None`; under the TTL backing a meta-less `set` applies the default TTL, so
the `Loading` entry receives the deadline `now + default_ttl` and the lazy
sweep removes it once that deadline passes — refuting the claim that a
`Loading` entry is never removed by the lazy sweep and that the TTL clock
starts only at `Loaded` installation. -/
theorem c4_loading_swept_counterexample :
    engineGet (V := Nat) (ttlB 0) (TtlState.new (K := Nat) 5) 0 99
      = .ok (.Loading 99, ⟨5, [(0, 5)], [(0, (.Loading 99, 5))]⟩) ∧
    removeOld 5 (⟨5, [(0, 5)], [(0, (CacheEntry.Loading 99, 5))]⟩
        : TtlState Nat (CacheEntry Nat))
      = ⟨5, [], []⟩ := by
  refine ⟨?_, ?_⟩ <;> decide

/-- C4 (amended): on a `Get` miss under the TTL backing the engine installs
the `Loading` entry with meta `None`, which the TTL backing resolves to the
default TTL: the installed entry is stored with deadline `now + default_ttl`
and an expiry record for it is placed in the queue, so it is subject to
expiry like any other entry. -/
theorem c4_loading_gets_default_ttl (now : Nat) (st : TtlState K (CacheEntry V))
    (k : K) (fresh : Nat) (hmiss : alookup (removeOld now st).map k = none) :
    ∃ st2, engineGet (ttlB now) st k fresh = .ok (.Loading fresh, st2) ∧
      alookup st2.map k = some (.Loading fresh, now + st.ttl) ∧
      (k, now + st.ttl) ∈ st2.queue := by
  have hset : ttlSet now k (CacheEntry.Loading fresh) none (removeOld now st)
      = .ok (.ok none, insertEntry
          { removeOld now st with
            map := (aset (removeOld now st).map k
              (CacheEntry.Loading fresh, now + st.ttl)).2 } k (now + st.ttl)) := by
    simp only [ttlSet, removeOld_idem]
    exact replace_none_prior (removeOld now st) k (CacheEntry.Loading fresh)
      (now + st.ttl) hmiss
  refine ⟨insertEntry
      { removeOld now st with
        map := (aset (removeOld now st).map k
          (CacheEntry.Loading fresh, now + st.ttl)).2 } k (now + st.ttl), ?_, ?_, ?_⟩
  · show engineGet (ttlB now) st k fresh = _
    simp only [engineGet, ttlB, ttlGet, hmiss]
    rw [hset]
    rfl
  · rw [insertEntry_map]
    show alookup (aset (removeOld now st).map k
      (CacheEntry.Loading fresh, now + st.ttl)).2 k = _
    rw [alookup_aset]
    simp
  · exact insertEntry_mem _ k _

theorem c4_loading_gets_default_ttl_witness :
    ∃ st2, engineGet (V := Nat) (ttlB 0) (TtlState.new (K := Nat) 5) 0 99
        = .ok (.Loading 99, st2) ∧
      alookup st2.map 0 = some (.Loading 99, 0 + (TtlState.new (K := Nat) (V := CacheEntry Nat) 5).ttl) ∧
      ((0 : Nat), 0 + (TtlState.new (K := Nat) (V := CacheEntry Nat) 5).ttl) ∈ st2.queue :=
  c4_loading_gets_default_ttl 0 (TtlState.new 5) 0 99 (by decide)

/-- C5 counterexample: `contains_key` first performs the lazy sweep, so on a
state holding an expired entry it mutates both the map and the expiry queue —
refuting the claim that it does not mutate any backing state. -/
theorem c5_contains_mutates_counterexample :
    (ttlContainsKey 5 0 (⟨5, [(0, 5)], [(0, (7, 5))]⟩ : TtlState Nat Nat)).2
        ≠ ⟨5, [(0, 5)], [(0, (7, 5))]⟩ ∧
    (ttlContainsKey 5 0 (⟨5, [(0, 5)], [(0, (7, 5))]⟩ : TtlState Nat Nat)).2
        = ⟨5, [], []⟩ := by
  refine ⟨?_, ?_⟩ <;> decide

/-- C5 (amended): `contains_key` first performs the lazy sweep (its resulting
state is the swept state, so it does mutate when entries have expired); on a
state satisfying the structural invariant its reply is true iff an entry for
the key exists and its stored deadline is strictly in the future. -/
theorem c5_contains_key_semantics (now : Nat) (k : K) (st : TtlState K V)
    (hinv : TtlInv st) :
    (ttlContainsKey now k st).2 = removeOld now st ∧
    ((ttlContainsKey now k st).1 = true ↔
      ∃ v d, alookup st.map k = some (v, d) ∧ now < d) := by
  constructor
  · rfl
  · show (alookup (removeOld now st).map k).isSome = true ↔ _
    rw [Option.isSome_iff_exists]
    constructor
    · rintro ⟨⟨v, d⟩, hx⟩
      rw [removeOld_lookup now st hinv k v d] at hx
      exact ⟨v, d, hx.1, hx.2⟩
    · rintro ⟨v, d, h1, h2⟩
      exact ⟨(v, d), (removeOld_lookup now st hinv k v d).mpr ⟨h1, h2⟩⟩

theorem c5_contains_key_semantics_witness :
    (ttlContainsKey 2 0 (⟨5, [(0, 7)], [(0, (3, 7))]⟩ : TtlState Nat Nat)).2
        = removeOld 2 ⟨5, [(0, 7)], [(0, (3, 7))]⟩ ∧
    ((ttlContainsKey 2 0 (⟨5, [(0, 7)], [(0, (3, 7))]⟩ : TtlState Nat Nat)).1 = true ↔
      ∃ v d, alookup ((⟨5, [(0, 7)], [(0, (3, 7))]⟩ : TtlState Nat Nat)).map 0
          = some (v, d) ∧ 2 < d) :=
  c5_contains_key_semantics 2 0 ⟨5, [(0, 7)], [(0, (3, 7))]⟩
    (by refine ⟨?_, ?_, ?_, ?_⟩ <;> decide)

/-- C6 counterexample: `remove_if` does not perform the lazy sweep: with a
predicate matching nothing it leaves an expired entry in place, whereas any
operation that sweeps first is insensitive to pre-sweeping — so `remove_if`
applied to the swept state differs from `remove_if` applied directly,
refuting the claim that every operation including `remove_if` sweeps
first. -/
theorem c6_remove_if_no_sweep_counterexample :
    ttlRemoveIf (fun _ _ => false)
        (removeOld 5 (⟨5, [(0, 5)], [(0, (7, 5))]⟩ : TtlState Nat Nat))
      ≠ ttlRemoveIf (fun _ _ => false)
        (⟨5, [(0, 5)], [(0, (7, 5))]⟩ : TtlState Nat Nat) := by
  decide

/-- C6 (amended): `get`, `get_mut`, `set` and `remove` of the TTL backing
perform the lazy sweep before their own work: each is insensitive to
pre-sweeping its input state (by idempotence of the sweep); `remove_if` does
not sweep. -/
theorem c6_ops_sweep_first (now : Nat) (k : K) (v : V) (meta : Option Nat)
    (st : TtlState K V) :
    ttlGet now k (removeOld now st) = ttlGet now k st ∧
    ttlGetMut now k (removeOld now st) = ttlGetMut now k st ∧
    ttlSet now k v meta (removeOld now st) = ttlSet now k v meta st ∧
    ttlRemove now k (removeOld now st) = ttlRemove now k st := by
  refine ⟨?_, ?_, ?_, ?_⟩ <;>
    simp [ttlGet, ttlGetMut, ttlSet, ttlRemove, removeOld_idem]

/-- C7: evaluation of the TTL backing at invariant-violating states: when the
displaced entry's deadline is present in the queue but the equal-deadline
block reaches the end of the queue without holding the key, the rightward
scan calls `get` past the end and `unwrap` panics (first conjunct) — instead
of returning `ExpiryKeyNotFound` as the spec prescribes; the error returns
only happen when the block ends before the queue's end (third conjunct) or
when the deadline is absent entirely (second conjunct). -/
theorem c7_panic_evaluation :
    ttlRemove 0 2 (⟨5, [(1, 5)], [(2, (7, 5))]⟩ : TtlState Nat Nat) = .panicked ∧
    ttlRemove 0 2 (⟨5, [(1, 6)], [(2, (7, 5))]⟩ : TtlState Nat Nat)
      = .ok (.error (.TtlError .ExpiryNotFound), ⟨5, [(1, 6)], []⟩) ∧
    ttlRemove 0 2 (⟨5, [(1, 5), (9, 6)], [(2, (7, 5))]⟩ : TtlState Nat Nat)
      = .ok (.error (.TtlError .ExpiryKeyNotFound), ⟨5, [(1, 5), (9, 6)], []⟩) := by
  refine ⟨?_, ?_, ?_⟩ <;> decide

end Claims

end CacheLoader
